import Mathlib

/-!
Verification of the `sps-eq` library (Structure-Preserving Signatures on
Equivalence Classes, Fuchsbauer–Hanser–Slamanig) against its specification.

The Rust source (`src/sign.rs`, `src/verify.rs`, `src/errors.rs`) is generic
over an arkworks `PairingEngine`.  We embed it over the *exponent model* of a
Type-III bilinear group of prime order `p`:

* the scalar field `E::Fr` is `ZMod p`;
* a point of `G1` (resp. `G2`) is represented by its discrete logarithm with
  respect to the fixed generator, i.e. by an element of `ZMod p`; the
  generators `g1`, `g2` are represented by `1`; scalar multiplication
  `s • P` becomes field multiplication `s * P`;
* an element of the target group `GT` is represented by its discrete
  logarithm with respect to `e(g1, g2)`; the pairing becomes
  `pairing a b = a * b`, which is bilinear and non-degenerate, and the
  multiplicative `GT` group operation becomes addition.

This interprets every group-theoretic step the library performs; the
correctness and error-path claims below only use the bilinear-group laws,
which the exponent model satisfies exactly.

Randomness: every `E::Fr::rand(rng)` call is modelled by reading successive
values of a draw stream `d : ℕ → ZMod p` (the RNG state).  A Rust panic
(`expect` on a failed `inverse()` or `read`, out-of-bounds slice indexing) is
modelled by the `Option` value `none`; a function that cannot panic but
returns `Result` is modelled with `Except`.  The `while is_zero` resampling
loop in `SigningKey::sign` is modelled with explicit fuel, `none` standing
for the (probability-zero) case in which the loop has not yet terminated.

Byte strings are `List ℕ` with entries below 256.  The arkworks
`ToBytes`/`FromBytes` instances for `G2Projective` (external library code)
write a fixed-width point encoding — for BLS12-381 the three uncompressed
`Fq2` projective coordinates, 3 · 96 = 288 bytes — and fail to read when
fewer bytes are available.  We model them by `g2Write`/`g2Read`, a
fixed-width 288-byte big-endian encoding of the point with exactly those
properties.
-/

namespace SpsEq

/-- Error enum of `src/errors.rs` (`SpsEqSignatureError`). -/
inductive SpsEqSignatureError
  | UnmatchedCapacity
  | InvalidSignature
  | InvalidSecretKeyVector
  | IoErrorWrite
deriving DecidableEq, Repr

/-- Decidable equality for `Except`, needed to evaluate results by `decide`. -/
instance exceptDecEq {ε α : Type} [DecidableEq ε] [DecidableEq α] :
    DecidableEq (Except ε α) := fun a b =>
  match a, b with
  | Except.ok x, Except.ok y =>
      if h : x = y then isTrue (by rw [h]) else isFalse (by intro hc; cases hc; exact h rfl)
  | Except.error x, Except.error y =>
      if h : x = y then isTrue (by rw [h]) else isFalse (by intro hc; cases hc; exact h rfl)
  | Except.ok _, Except.error _ => isFalse (by intro hc; cases hc)
  | Except.error _, Except.ok _ => isFalse (by intro hc; cases hc)

variable (p : ℕ)

/-- Exponent-model pairing `e : G1 × G2 → GT`: with points represented by
their discrete logs, `e(a·g1, b·g2) = e(g1,g2)^(a*b)` is represented by
`a * b`. -/
def pairing (a b : ZMod p) : ZMod p := a * b

/-- Generator of `G1` (`prime_subgroup_generator`), discrete log `1`. -/
def g1 : ZMod p := 1

/-- Generator of `G2` (`prime_subgroup_generator`), discrete log `1`. -/
def g2 : ZMod p := 1

/-- arkworks `Field::inverse`: `None` on zero, the field inverse otherwise.
For a non-zero `x` in the prime field the inverse is computed here as
`x ^ (p - 2)` (Fermat), which equals `x⁻¹` (`fieldInverse_eq_inv` below);
this keeps the definition kernel-reducible on concrete inputs. -/
def fieldInverse (x : ZMod p) : Option (ZMod p) :=
  if x = 0 then none else some (x ^ (p - 2))

/-- SPS-EQ signature `(Z, Y, Yp)` of `src/sign.rs` (`SpsEqSignature`). -/
structure SpsEqSignature where
  Z : ZMod p
  Y : ZMod p
  Yp : ZMod p
deriving DecidableEq, Repr

/-- Signing key of `src/sign.rs` (`SigningKey`). -/
structure SigningKey where
  signature_capacity : ℕ
  secret_keys : List (ZMod p)
deriving DecidableEq, Repr

/-- Public key of `src/verify.rs` (`PublicKey`). -/
structure PublicKey where
  signature_capacity : ℕ
  public_keys : List (ZMod p)
deriving DecidableEq, Repr

/-- The `while randomness.is_zero() { randomness = rand(rng) }` sampling loop
of `SigningKey::sign`: first non-zero value of the draw stream starting at
index `i`, with explicit fuel (`none` = loop still running). -/
def sampleNonZero (d : ℕ → ZMod p) : ℕ → ℕ → Option (ZMod p)
  | _, 0 => none
  | i, fuel + 1 => if d i = 0 then sampleNonZero d (i + 1) fuel else some (d i)

/-- `SigningKey::new` (src/sign.rs lines 111-120).  The Rust
`vec![E::Fr::rand(rng); signature_capacity]` evaluates `rand` once and clones
the single sample `signature_capacity` times, so the model replicates the
first draw of the stream. -/
def SigningKey.new (signature_capacity : ℕ) (d : ℕ → ZMod p) : SigningKey p :=
  ⟨signature_capacity, List.replicate signature_capacity (d 0)⟩

/-- `SigningKey::from` (src/sign.rs lines 123-130).  (`from` is a Lean
keyword, hence the name `fromVec`.)  The Rust body performs no validation at
all: it unconditionally returns `Ok` with `signature_capacity = sks.len()`. -/
def SigningKey.fromVec (sks : List (ZMod p)) :
    Except SpsEqSignatureError (SigningKey p) :=
  Except.ok ⟨sks.length, sks⟩

/-- `SigningKey::sign` (src/sign.rs lines 133-160).  `Z` accumulates
`value *= key; Z += value` over `messages.iter_mut().zip(self)`, i.e. the sum
of pointwise products over the zip; then `Z *= randomness`,
`Y = g1 * randomness⁻¹`, `Yp = g2 * randomness⁻¹`.  The two
`randomness.inverse().expect(..)` calls are modelled by `fieldInverse`
(they cannot fail since the loop guarantees `randomness ≠ 0`). -/
def SigningKey.sign (sk : SigningKey p) (messages : List (ZMod p))
    (d : ℕ → ZMod p) (fuel : ℕ) : Option (SpsEqSignature p) :=
  match sampleNonZero p d 0 fuel with
  | none => none
  | some randomness =>
    match fieldInverse p randomness with
    | none => none
    | some rinv =>
      let Z : ZMod p := ((messages.zip sk.secret_keys).map fun a => a.1 * a.2).sum
      some ⟨randomness * Z, rinv * g1 p, rinv * g2 p⟩

/-- `SpsEqSignature::rnd_message` (src/sign.rs lines 66-75): multiply every
message component by `rnd_f`. -/
def SpsEqSignature.rnd_message (message : List (ZMod p)) (rnd_f : ZMod p) :
    List (ZMod p) :=
  message.map fun g => rnd_f * g

/-- `SpsEqSignature::rnd_signature` (src/sign.rs lines 77-97):
`Z *= rnd_u; Z *= rnd_f; Y *= rnd_u⁻¹; Yp *= rnd_u⁻¹`.  The
`rnd_u.inverse().expect("It will never be zero")` panics when `rnd_u = 0`,
modelled by `none`. -/
def SpsEqSignature.rnd_signature (signature : SpsEqSignature p)
    (rnd_u rnd_f : ZMod p) : Option (SpsEqSignature p) :=
  match fieldInverse p rnd_u with
  | none => none
  | some rnd_u_inverse =>
    some ⟨rnd_f * (rnd_u * signature.Z),
          rnd_u_inverse * signature.Y,
          rnd_u_inverse * signature.Yp⟩

/-- `SpsEqSignature::change_repr` (src/sign.rs lines 26-43), the in-place
flavor: draws `rnd_f` then `rnd_u` with plain `E::Fr::rand` (no zero check),
overwrites `self` with `rnd_signature` and returns the new message.  The
model returns the pair (new `self`, returned message). -/
def SpsEqSignature.change_repr (s : SpsEqSignature p)
    (message : List (ZMod p)) (d : ℕ → ZMod p) :
    Option (SpsEqSignature p × List (ZMod p)) :=
  let rnd_f := d 0
  let rnd_u := d 1
  match SpsEqSignature.rnd_signature p s rnd_u rnd_f with
  | none => none
  | some rs => some (rs, SpsEqSignature.rnd_message p message rnd_f)

/-- `SpsEqSignature::generate_new_repr` (src/sign.rs lines 49-64), the
consuming flavor: identical draws and computation, returning the new
(signature, message) pair. -/
def SpsEqSignature.generate_new_repr (s : SpsEqSignature p)
    (message : List (ZMod p)) (d : ℕ → ZMod p) :
    Option (SpsEqSignature p × List (ZMod p)) :=
  let rnd_f := d 0
  let rnd_u := d 1
  match SpsEqSignature.rnd_signature p s rnd_u rnd_f with
  | none => none
  | some rs => some (rs, SpsEqSignature.rnd_message p message rnd_f)

/-- The key-derivation loop of `From<&SigningKey> for PublicKey`
(src/verify.rs lines 85-98): `public_keys` starts as
`vec![g2; signature_capacity]` and `*pkey *= skey` over the zip with the
signing key; entries beyond the zip are left untouched. -/
def scaleKeys : List (ZMod p) → List (ZMod p) → List (ZMod p)
  | [], _ => []
  | pts, [] => pts
  | pt :: pts, x :: xs => x * pt :: scaleKeys pts xs

/-- `From<&SigningKey> for PublicKey` (src/verify.rs lines 85-98). -/
def PublicKey.fromSigningKey (sk : SigningKey p) : PublicKey p :=
  ⟨sk.signature_capacity,
   scaleKeys p (List.replicate sk.signature_capacity (g2 p)) sk.secret_keys⟩

/-- `PublicKey::verify` (src/verify.rs lines 20-48).  After the capacity
check, the Rust code evaluates `messages[0]` and `self.public_keys[0]`
unconditionally — an out-of-bounds panic when either list is empty, modelled
by `none`.  `check_1` folds `check_1 *= pairing` over
`messages.iter().zip(public_keys).skip(1)`, which for cons-shaped lists is
the zip of the tails. -/
def PublicKey.verify (pk : PublicKey p) (messages : List (ZMod p))
    (signature : SpsEqSignature p) :
    Option (Except SpsEqSignatureError Unit) :=
  if pk.signature_capacity ≠ messages.length then
    some (Except.error SpsEqSignatureError.UnmatchedCapacity)
  else
    match messages, pk.public_keys with
    | m0 :: mrest, k0 :: krest =>
      let check_1 :=
        (mrest.zip krest).foldl (fun acc q => acc + pairing p q.1 q.2)
          (pairing p m0 k0)
      let expected_check_1 := pairing p signature.Z signature.Yp
      if check_1 ≠ expected_check_1 then
        some (Except.error SpsEqSignatureError.InvalidSignature)
      else
        let check_2 := pairing p signature.Y (g2 p)
        let expected_check_2 := pairing p (g1 p) signature.Yp
        if check_2 ≠ expected_check_2 then
          some (Except.error SpsEqSignatureError.InvalidSignature)
        else some (Except.ok ())
    | _, _ => none

/-- Big-endian byte encoding of a natural number in exactly `w` bytes
(the value taken mod `256 ^ w`), as in `usize::to_be_bytes`. -/
def natToBEBytes : ℕ → ℕ → List ℕ
  | 0, _ => []
  | w + 1, n => natToBEBytes w (n / 256) ++ [n % 256]

/-- Big-endian byte decoding, as in `usize::from_be_bytes`. -/
def fromBEBytes (bs : List ℕ) : ℕ :=
  bs.foldl (fun acc b => acc * 256 + b) 0

/-- Model of the arkworks `ToBytes` instance for `E::G2Projective` at
BLS12-381: a fixed-width 288-byte encoding of the point (three uncompressed
96-byte `Fq2` projective coordinates). -/
def g2Write (x : ZMod p) : List ℕ := natToBEBytes 288 x.val

/-- Model of the arkworks `FromBytes` instance for `E::G2Projective` at
BLS12-381: reads exactly 288 bytes, failing (`Err`) when fewer are
available. -/
def g2Read (bs : List ℕ) : Option (ZMod p) :=
  if bs.length < 288 then none
  else some ((fromBEBytes (bs.take 288) : ℕ) : ZMod p)

/-- Rust `slice::chunks k` (with fuel so that the definition reduces): splits
into consecutive chunks of size `k`, the last chunk possibly shorter. -/
def chunksOfAux (k : ℕ) : ℕ → List ℕ → List (List ℕ)
  | 0, _ => []
  | _, [] => []
  | fuel + 1, l => l.take k :: chunksOfAux k fuel (l.drop k)

/-- Rust `slice::chunks k` for `k ≥ 1`: fuel `l.length` always suffices. -/
def chunksOf (k : ℕ) (l : List ℕ) : List (List ℕ) :=
  chunksOfAux k l.length l

/-- `PublicKey::to_bytes` (src/verify.rs lines 52-62): the 8 big-endian bytes
of `signature_capacity` (a 64-bit `usize`), then each public key written in
sequence.  Writing into a `Vec<u8>` cannot fail, so the `IoErrorWrite`
branch is unreachable and the model returns the bytes directly. -/
def PublicKey.to_bytes (pk : PublicKey p) : List ℕ :=
  pk.public_keys.foldl (fun w pt => w ++ g2Write p pt)
    (natToBEBytes 8 pk.signature_capacity)

/-- The point-reading loop of `PublicKey::from_bytes`: each chunk is read
with `E::G2Projective::read(keys).expect("and this")`, a panic (`none`) on
the first failing read. -/
def readPoints : List (List ℕ) → Option (List (ZMod p))
  | [] => some []
  | c :: cs =>
    match g2Read p c with
    | none => none
    | some pt =>
      match readPoints cs with
      | none => none
      | some pts => some (pt :: pts)

/-- `PublicKey::from_bytes` (src/verify.rs lines 65-81): `bytes[..8]` panics
(`none`) when fewer than 8 bytes are supplied; the capacity is decoded
big-endian; the remainder is split with the hardcoded `chunks(288)`; each
chunk is read with a panicking `expect`; finally the decoded capacity is
compared with the number of points read. -/
def PublicKey.from_bytes (bytes : List ℕ) :
    Option (Except SpsEqSignatureError (PublicKey p)) :=
  if bytes.length < 8 then none
  else
    let signature_capacity := fromBEBytes (bytes.take 8)
    match readPoints p (chunksOf 288 (bytes.drop 8)) with
    | none => none
    | some public_keys =>
      if signature_capacity ≠ public_keys.length then
        some (Except.error SpsEqSignatureError.UnmatchedCapacity)
      else some (Except.ok ⟨signature_capacity, public_keys⟩)

/-- `PartialEq for PublicKey` (src/verify.rs lines 100-104): equality
compares only the `public_keys` vectors. -/
def PublicKey.partialEq (a b : PublicKey p) : Prop :=
  a.public_keys = b.public_keys

instance (a b : PublicKey p) : Decidable (PublicKey.partialEq p a b) := by
  unfold PublicKey.partialEq; infer_instance

end SpsEq


namespace SpsEq

set_option maxRecDepth 100000

variable (p : ℕ)

/-- The resampling loop only ever returns a non-zero scalar. -/
theorem sampleNonZero_ne_zero (d : ℕ → ZMod p) :
    ∀ fuel i y, sampleNonZero p d i fuel = some y → y ≠ 0 := by
  intro fuel
  induction fuel with
  | zero => intro i y h; simp [sampleNonZero] at h
  | succ n ih =>
    intro i y h
    by_cases hz : d i = 0
    · rw [sampleNonZero, if_pos hz] at h
      exact ih (i + 1) y h
    · rw [sampleNonZero, if_neg hz] at h
      cases h
      exact hz

/-- On a non-zero element of the prime field, `fieldInverse` returns the
field inverse. -/
theorem fieldInverse_eq_inv [Fact p.Prime] (x : ZMod p) (hx : x ≠ 0) :
    fieldInverse p x = some x⁻¹ := by
  rw [fieldInverse, if_neg hx]
  congr 1
  have hp2 : 2 ≤ p := (Fact.out : p.Prime).two_le
  have h1 : x ^ (p - 2) * x = 1 := by
    rw [← pow_succ]
    have hexp : p - 2 + 1 = p - 1 := by omega
    rw [hexp]
    exact ZMod.pow_card_sub_one_eq_one hx
  exact (inv_eq_of_mul_eq_one_left h1).symm

/-- The `check_1 *= pairing` accumulation is the initial pairing plus the sum
of the remaining products. -/
theorem foldl_pairing_eq :
    ∀ (l : List (ZMod p × ZMod p)) (a : ZMod p),
      l.foldl (fun acc q => acc + pairing p q.1 q.2) a =
        a + (l.map fun q => q.1 * q.2).sum := by
  intro l
  induction l with
  | nil => intro a; simp
  | cons x xs ih =>
    intro a
    simp only [List.foldl_cons, List.map_cons, List.sum_cons, ih]
    rw [pairing]
    ring

/-- Scaling a vector of `g2` generators by the secret scalars yields the
scalars themselves (in the exponent model). -/
theorem scaleKeys_replicate_one :
    ∀ xs : List (ZMod p),
      scaleKeys p (List.replicate xs.length (g2 p)) xs = xs := by
  intro xs
  simp only [g2]
  induction xs with
  | nil => rfl
  | cons x xs ih =>
    simp only [List.length_cons, List.replicate_succ, scaleKeys, ih, mul_one]

/-- Characterization of a successful verification (src/verify.rs lines
20-48): the capacity matches, both the message and the key vector are
non-empty, and the two pairing equations hold. -/
theorem verify_ok_iff (pk : PublicKey p) (M : List (ZMod p))
    (σ : SpsEqSignature p) :
    PublicKey.verify p pk M σ = some (Except.ok ()) ↔
      (pk.signature_capacity = M.length ∧
       ∃ m0 mrest k0 krest, M = m0 :: mrest ∧ pk.public_keys = k0 :: krest ∧
         pairing p m0 k0 + ((mrest.zip krest).map fun q => q.1 * q.2).sum =
           pairing p σ.Z σ.Yp ∧
         pairing p σ.Y (g2 p) = pairing p (g1 p) σ.Yp) := by
  obtain ⟨cap, keys⟩ := pk
  rcases M with _ | ⟨m0, mrest⟩ <;> rcases keys with _ | ⟨k0, krest⟩ <;>
    simp only [PublicKey.verify, foldl_pairing_eq] <;>
    split_ifs <;>
    simp_all <;>
    exact ⟨m0, mrest, ⟨rfl, rfl⟩, k0, krest, ⟨rfl, rfl⟩, by assumption⟩


/-- Sum over a zip whose left components are scaled by `r` equals `r` times
the plain sum (bilinearity of the pairing in the exponent model). -/
theorem zip_map_scale (r : ZMod p) :
    ∀ ms ks : List (ZMod p),
      (((ms.map fun g => r * g).zip ks).map fun q => q.1 * q.2).sum =
        r * ((ms.zip ks).map fun q => q.1 * q.2).sum := by
  intro ms
  induction ms with
  | nil => intro ks; simp
  | cons m ms ih =>
    intro ks
    rcases ks with _ | ⟨k, ks⟩
    · simp
    · simp only [List.map_cons, List.zip_cons_cons, List.sum_cons, ih]
      ring

/-- Primality of the concrete field order used in the witnesses. -/
instance fact_prime_101 : Fact (Nat.Prime 101) := ⟨by decide⟩

/-- Non-triviality of the concrete field order used in the witnesses. -/
instance neZero_101 : NeZero (101 : ℕ) := ⟨by decide⟩

/-- Claim C1: for every signing key of capacity at least 1 (all reachable
signing keys satisfy `secret_keys.length = signature_capacity`), every
message of matching length, and every RNG draw stream on which the signing
loop terminates, verifying the produced signature with the public key
derived from the signing key succeeds with `Ok(())`. -/
theorem C1_sign_then_verify [Fact p.Prime] (sk : SigningKey p)
    (M : List (ZMod p)) (d : ℕ → ZMod p) (fuel : ℕ) (σ : SpsEqSignature p)
    (hlen : sk.secret_keys.length = sk.signature_capacity)
    (hM : M.length = sk.signature_capacity)
    (hcap : 1 ≤ sk.signature_capacity)
    (hσ : SigningKey.sign p sk M d fuel = some σ) :
    PublicKey.verify p (PublicKey.fromSigningKey p sk) M σ =
      some (Except.ok ()) := by
  rcases e1 : sampleNonZero p d 0 fuel with _ | y
  · rw [SigningKey.sign, e1] at hσ; exact absurd hσ (by simp)
  have hy : y ≠ 0 := sampleNonZero_ne_zero p d fuel 0 y e1
  simp only [SigningKey.sign, e1, fieldInverse_eq_inv p y hy,
    Option.some.injEq] at hσ
  subst hσ
  have hkeys : (PublicKey.fromSigningKey p sk).public_keys = sk.secret_keys := by
    simp only [PublicKey.fromSigningKey]
    rw [← hlen, scaleKeys_replicate_one]
  rcases hMc : M with _ | ⟨m0, mrest⟩
  · exfalso; rw [hMc] at hM; simp at hM; omega
  rcases hx : sk.secret_keys with _ | ⟨x0, xrest⟩
  · exfalso; rw [hx] at hlen; simp at hlen; omega
  rw [verify_ok_iff]
  refine ⟨?_, m0, mrest, x0, xrest, rfl, ?_, ?_, ?_⟩
  · simp only [PublicKey.fromSigningKey]
    rw [← hM, hMc]
  · rw [hkeys, hx]
  · simp only [hMc, hx, List.zip_cons_cons, List.map_cons, List.sum_cons,
      pairing, g2]
    have hzy : y * y⁻¹ = 1 := mul_inv_cancel₀ hy
    linear_combination
      (-(m0 * x0 + (List.map (fun q => q.1 * q.2) (mrest.zip xrest)).sum)) * hzy
  · simp only [pairing, g1, g2]
    ring

/-- Witness for C1 at `p = 101`, `sk = (1, [2])`, `M = [3]`, the constant-one
draw stream, fuel 1. -/
theorem C1_sign_then_verify_witness :
    ((SigningKey.mk 1 [2] : SigningKey 101).secret_keys.length =
        (SigningKey.mk 1 [2] : SigningKey 101).signature_capacity ∧
     ([3] : List (ZMod 101)).length = 1 ∧ 1 ≤ 1 ∧
     SigningKey.sign 101 ⟨1, [2]⟩ [3] (fun _ => 1) 1 = some ⟨6, 1, 1⟩) ∧
    PublicKey.verify 101 (PublicKey.fromSigningKey 101 ⟨1, [2]⟩) [3] ⟨6, 1, 1⟩ =
      some (Except.ok ()) :=
  ⟨⟨by decide, by decide, by decide, by decide⟩,
   C1_sign_then_verify 101 ⟨1, [2]⟩ [3] (fun _ => 1) 1 ⟨6, 1, 1⟩
     (by decide) (by decide) (by decide) (by decide)⟩

/-- Claim C6: verification with a message whose length differs from the
public key capacity returns `UnmatchedCapacity`, whatever the signature. -/
theorem C6_unmatched_capacity (pk : PublicKey p) (M : List (ZMod p))
    (σ : SpsEqSignature p) (h : M.length ≠ pk.signature_capacity) :
    PublicKey.verify p pk M σ =
      some (Except.error SpsEqSignatureError.UnmatchedCapacity) := by
  rw [PublicKey.verify.eq_def, if_pos (Ne.symm h)]

/-- Witness for C6 at `p = 101` with an empty message and capacity 1. -/
theorem C6_unmatched_capacity_witness :
    (([] : List (ZMod 101)).length ≠
        (PublicKey.mk 1 [1] : PublicKey 101).signature_capacity) ∧
    PublicKey.verify 101 ⟨1, [1]⟩ [] ⟨0, 0, 0⟩ =
      some (Except.error SpsEqSignatureError.UnmatchedCapacity) :=
  ⟨by decide, C6_unmatched_capacity 101 ⟨1, [1]⟩ [] ⟨0, 0, 0⟩ (by decide)⟩

/-- Claim C10: a capacity-0 public key is constructible because
`SigningKey::from` accepts the empty vector, and `verify` on it with the
empty message aborts (out-of-bounds indexing of `messages[0]`, modelled by
`none`) instead of returning a `Result`; for well-formed keys of capacity at
least 1 and matching message length, `verify` always returns a value. -/
theorem C10_capacity_zero_verify_aborts (σ0 : SpsEqSignature p)
    (pk : PublicKey p) (M : List (ZMod p)) (σ1 : SpsEqSignature p)
    (hcap : pk.signature_capacity = M.length)
    (hone : 1 ≤ M.length)
    (hkeys : pk.public_keys.length = pk.signature_capacity) :
    SigningKey.fromVec p [] = Except.ok ⟨0, []⟩ ∧
    PublicKey.verify p (PublicKey.fromSigningKey p ⟨0, []⟩) [] σ0 = none ∧
    (PublicKey.verify p pk M σ1).isSome = true := by
  refine ⟨rfl, rfl, ?_⟩
  obtain ⟨cap, keys⟩ := pk
  simp only at hcap hkeys
  rcases M with _ | ⟨m0, mrest⟩
  · simp at hone
  rcases keys with _ | ⟨k0, krest⟩
  · exfalso; simp at hkeys hcap; omega
  simp only [PublicKey.verify]
  split_ifs <;> simp

/-- Witness for C10 at `p = 101` with a capacity-1 key. -/
theorem C10_capacity_zero_verify_aborts_witness :
    ((PublicKey.mk 1 [1] : PublicKey 101).signature_capacity =
        ([3] : List (ZMod 101)).length ∧
     1 ≤ ([3] : List (ZMod 101)).length ∧
     (PublicKey.mk 1 [1] : PublicKey 101).public_keys.length =
        (PublicKey.mk 1 [1] : PublicKey 101).signature_capacity) ∧
    (SigningKey.fromVec 101 [] = Except.ok ⟨0, []⟩ ∧
     PublicKey.verify 101 (PublicKey.fromSigningKey 101 ⟨0, []⟩) [] ⟨5, 5, 5⟩ =
       none ∧
     (PublicKey.verify 101 ⟨1, [1]⟩ [3] ⟨2, 3, 4⟩).isSome = true) :=
  ⟨⟨by decide, by decide, by decide⟩,
   C10_capacity_zero_verify_aborts 101 ⟨5, 5, 5⟩ ⟨1, [1]⟩ [3] ⟨2, 3, 4⟩
     (by decide) (by decide) (by decide)⟩

/-- Counterexample to claim C2 as stated: at `p = 101` the pair
`(pk, M, σ) = ((1,[5]), [3], (15,1,1))` verifies, yet for the RNG state whose
second draw (the signature randomizer `rnd_u`) is zero, `change_repr` panics
(`rnd_u.inverse().expect(..)`), so no re-randomized pair is returned at all,
let alone a verifying one. -/
theorem C2_counterexample :
    PublicKey.verify 101 ⟨1, [5]⟩ [3] ⟨15, 1, 1⟩ = some (Except.ok ()) ∧
    SpsEqSignature.change_repr 101 ⟨15, 1, 1⟩ [3]
      (fun n => if n = 1 then 0 else 1) = none ∧
    SpsEqSignature.generate_new_repr 101 ⟨15, 1, 1⟩ [3]
      (fun n => if n = 1 then 0 else 1) = none :=
  ⟨by decide, by decide, by decide⟩

/-- Claim C2 (amended): if `verify(pk, M, σ) = Ok` and the RNG state's second
draw (the signature randomizer) is non-zero — for a zero draw both flavors
panic, see C9 — then both `change_repr` and `generate_new_repr` return the
same new (signature, message) pair and `verify` accepts it. -/
theorem C2_change_repr_preserves_validity [Fact p.Prime] (pk : PublicKey p)
    (M : List (ZMod p)) (σ : SpsEqSignature p) (d : ℕ → ZMod p)
    (hok : PublicKey.verify p pk M σ = some (Except.ok ()))
    (hu : d 1 ≠ 0) :
    ∃ σ2 M2,
      SpsEqSignature.change_repr p σ M d = some (σ2, M2) ∧
      SpsEqSignature.generate_new_repr p σ M d = some (σ2, M2) ∧
      PublicKey.verify p pk M2 σ2 = some (Except.ok ()) := by
  have hinv := fieldInverse_eq_inv p (d 1) hu
  refine ⟨⟨d 0 * (d 1 * σ.Z), (d 1)⁻¹ * σ.Y, (d 1)⁻¹ * σ.Yp⟩,
          SpsEqSignature.rnd_message p M (d 0), ?_, ?_, ?_⟩
  · simp [SpsEqSignature.change_repr, SpsEqSignature.rnd_signature, hinv]
  · simp [SpsEqSignature.generate_new_repr, SpsEqSignature.rnd_signature, hinv]
  · rw [verify_ok_iff] at hok ⊢
    obtain ⟨hcap, m0, mrest, k0, krest, hMc, hK, hchk1, hchk2⟩ := hok
    subst hMc
    have hdu : d 1 * (d 1)⁻¹ = 1 := mul_inv_cancel₀ hu
    simp only [pairing, g1, g2] at hchk1 hchk2 ⊢
    refine ⟨?_, d 0 * m0, mrest.map fun g => d 0 * g, k0, krest, ?_, hK,
            ?_, ?_⟩
    · simpa [SpsEqSignature.rnd_message] using hcap
    · simp [SpsEqSignature.rnd_message]
    · rw [zip_map_scale]
      linear_combination (d 0) * hchk1 - (d 0 * σ.Z * σ.Yp) * hdu
    · linear_combination (d 1)⁻¹ * hchk2

/-- Witness for the amended C2 at `p = 101`. -/
theorem C2_change_repr_preserves_validity_witness :
    (PublicKey.verify 101 ⟨1, [5]⟩ [3] ⟨15, 1, 1⟩ = some (Except.ok ()) ∧
     ((fun n => if n = 1 then (3 : ZMod 101) else 2) 1 ≠ 0)) ∧
    (∃ σ2 M2,
      SpsEqSignature.change_repr 101 ⟨15, 1, 1⟩ [3]
        (fun n => if n = 1 then (3 : ZMod 101) else 2) = some (σ2, M2) ∧
      SpsEqSignature.generate_new_repr 101 ⟨15, 1, 1⟩ [3]
        (fun n => if n = 1 then (3 : ZMod 101) else 2) = some (σ2, M2) ∧
      PublicKey.verify 101 ⟨1, [5]⟩ M2 σ2 = some (Except.ok ())) :=
  ⟨⟨by decide, by decide⟩,
   C2_change_repr_preserves_validity 101 ⟨1, [5]⟩ [3] ⟨15, 1, 1⟩
     (fun n => if n = 1 then (3 : ZMod 101) else 2) (by decide) (by decide)⟩

/-- Claim C3 (the code at the failing input): `SigningKey::new` evaluates
`E::Fr::rand(rng)` once and clones it, so at capacity 2 with a stream whose
first two draws are 1 and 2, the produced secret keys are `[1, 1]` — the
single first draw repeated — and not the two independent draws `[1, 2]`. -/
theorem C3_new_clones_single_draw :
    (SigningKey.new 101 2 fun n => (n : ZMod 101) + 1).secret_keys = [1, 1] ∧
    ([1, 1] : List (ZMod 101)) ≠ [1, 2] ∧
    (fun n => (n : ZMod 101) + 1) 0 = 1 ∧
    (fun n => (n : ZMod 101) + 1) 1 = 2 :=
  ⟨by decide, by decide, by decide, by decide⟩

/-- Claim C4 (the code at the failing inputs): `SigningKey::from` performs no
validation, returning `Ok` both on a vector containing the zero scalar and on
the empty vector, instead of the `InvalidSecretKeyVector` error the claim
requires. -/
theorem C4_fromVec_accepts_zero_and_empty :
    SigningKey.fromVec 101 [0] = Except.ok ⟨1, [0]⟩ ∧
    SigningKey.fromVec 101 [] = Except.ok ⟨0, []⟩ :=
  ⟨by decide, by decide⟩

/-- Claim C9 (the code at the failing input): both change-of-representation
flavors sample the randomizers with plain `rand` (no non-zero retry), so on
an RNG state whose second draw (`rnd_u`) is zero the
`rnd_u.inverse().expect("It will never be zero")` panic is reached (modelled
by `none`): change of representation can fail. -/
theorem C9_change_repr_panics_on_zero_draw :
    SpsEqSignature.change_repr 101 ⟨6, 1, 1⟩ [4]
      (fun n => if n = 1 then 0 else 1) = none ∧
    SpsEqSignature.generate_new_repr 101 ⟨6, 1, 1⟩ [4]
      (fun n => if n = 1 then 0 else 1) = none ∧
    SpsEqSignature.rnd_signature 101 ⟨6, 1, 1⟩ 0 1 = none :=
  ⟨by decide, by decide, by decide⟩


/-- A `w`-wide big-endian encoding has exactly `w` bytes. -/
theorem natToBEBytes_length : ∀ w n, (natToBEBytes w n).length = w := by
  intro w
  induction w with
  | zero => intro n; rfl
  | succ k ih => intro n; simp [natToBEBytes, ih]

/-- Folding the big-endian decoder over one more trailing byte. -/
theorem fromBEBytes_append_one (l : List ℕ) (b : ℕ) :
    fromBEBytes (l ++ [b]) = fromBEBytes l * 256 + b := by
  rw [fromBEBytes, fromBEBytes, List.foldl_append]
  rfl

/-- Decoding a `w`-wide big-endian encoding recovers the value mod `256^w`. -/
theorem fromBEBytes_natToBEBytes :
    ∀ w n, fromBEBytes (natToBEBytes w n) = n % 256 ^ w := by
  intro w
  induction w with
  | zero =>
    intro n
    simp [natToBEBytes, fromBEBytes, Nat.mod_one]
  | succ k ih =>
    intro n
    rw [natToBEBytes, fromBEBytes_append_one, ih]
    have hpow : (256 : ℕ) ^ (k + 1) = 256 * 256 ^ k := by ring
    rw [hpow, Nat.mod_mul]
    ring

/-- A written point occupies exactly 288 bytes. -/
theorem g2Write_length (x : ZMod p) : (g2Write p x).length = 288 :=
  natToBEBytes_length 288 x.val

/-- Reading back a written point recovers it (for any group order that fits
in the 288-byte width, as every real curve order does). -/
theorem g2Read_g2Write [NeZero p] (hp : p ≤ 256 ^ 288) (x : ZMod p) :
    g2Read p (g2Write p x) = some x := by
  have hl : (g2Write p x).length = 288 := g2Write_length p x
  rw [g2Read, if_neg (by omega)]
  have htake : (g2Write p x).take 288 = g2Write p x := by
    rw [← hl]
    exact List.take_length _
  rw [htake, g2Write, fromBEBytes_natToBEBytes,
    Nat.mod_eq_of_lt (lt_of_lt_of_le (ZMod.val_lt x) hp)]
  exact congrArg some (ZMod.natCast_rightInverse x)

/-- The reading loop of `from_bytes` inverts pointwise writing. -/
theorem readPoints_map_g2Write [NeZero p] (hp : p ≤ 256 ^ 288) :
    ∀ ks : List (ZMod p), readPoints p (ks.map (g2Write p)) = some ks := by
  intro ks
  induction ks with
  | nil => rfl
  | cons k ks ih =>
    simp only [List.map_cons, readPoints, g2Read_g2Write p hp, ih]

/-- The writing loop of `to_bytes` appends the pointwise encodings. -/
theorem foldl_append_g2Write :
    ∀ (l : List (ZMod p)) (init : List ℕ),
      l.foldl (fun w pt => w ++ g2Write p pt) init =
        init ++ (l.map (g2Write p)).flatten := by
  intro l
  induction l with
  | nil => intro init; simp
  | cons x xs ih => intro init; simp [ih]

/-- Splitting a concatenation of `k`-byte blocks into `k`-chunks recovers the
blocks (with any sufficient fuel). -/
theorem chunksOfAux_join_eq (k : ℕ) (hk : k ≠ 0) :
    ∀ (cs : List (List ℕ)) (fuel : ℕ), (∀ c ∈ cs, c.length = k) →
      cs.flatten.length ≤ fuel → chunksOfAux k fuel cs.flatten = cs := by
  intro cs
  induction cs with
  | nil =>
    intro fuel _ _
    cases fuel <;> rfl
  | cons c cs ih =>
    intro fuel hlen hfuel
    have hc : c.length = k := hlen c (by simp)
    rcases c with _ | ⟨b, bs⟩
    · exfalso; simp at hc; omega
    rcases fuel with _ | f
    · exfalso
      simp [List.flatten] at hfuel
    · have hjoin : cs.flatten.length ≤ f := by
        have hh := hfuel
        simp only [List.flatten_cons, List.length_append, List.length_cons] at hh
        omega
      have htake : ((b :: bs) ++ cs.flatten).take k = b :: bs := by
        rw [← hc]
        exact List.take_left _ _
      have hdrop : ((b :: bs) ++ cs.flatten).drop k = cs.flatten := by
        rw [← hc]
        exact List.drop_left _ _
      rw [List.flatten_cons, List.cons_append, chunksOfAux, ← List.cons_append,
        htake, hdrop, ih f (fun x hx => hlen x (by simp [hx])) hjoin]
      simp

/-- `chunksOf` version of `chunksOfAux_join_eq`. -/
theorem chunksOf_join_eq (k : ℕ) (hk : k ≠ 0) (cs : List (List ℕ))
    (h : ∀ c ∈ cs, c.length = k) : chunksOf k cs.flatten = cs :=
  chunksOfAux_join_eq k hk cs cs.flatten.length h le_rfl

/-- Claim C8: encoding then decoding is the identity on public keys (for
every reachable `PublicKey`, whose constructors enforce
`signature_capacity = public_keys.length`; the capacity is a 64-bit `usize`;
the group order fits the 288-byte point width, as for every real curve):
`from_bytes (to_bytes pk)` succeeds and the result equals `pk` under the
`PartialEq` of `PublicKey`. -/
theorem C8_encode_decode_round_trip [NeZero p] (pk : PublicKey p)
    (hwf : pk.signature_capacity = pk.public_keys.length)
    (hcap : pk.signature_capacity < 2 ^ 64)
    (hp : p ≤ 256 ^ 288) :
    ∃ pk2 : PublicKey p,
      PublicKey.from_bytes p (PublicKey.to_bytes p pk) =
        some (Except.ok pk2) ∧
      PublicKey.partialEq p pk2 pk := by
  obtain ⟨cap, keys⟩ := pk
  simp only at hwf hcap
  refine ⟨⟨cap, keys⟩, ?_, rfl⟩
  have h8 : (natToBEBytes 8 cap).length = 8 := natToBEBytes_length 8 cap
  have hbytes : PublicKey.to_bytes p ⟨cap, keys⟩ =
      natToBEBytes 8 cap ++ (keys.map (g2Write p)).flatten := by
    rw [PublicKey.to_bytes]
    exact foldl_append_g2Write p keys _
  have htake : (natToBEBytes 8 cap ++ (keys.map (g2Write p)).flatten).take 8 =
      natToBEBytes 8 cap := by
    rw [← h8]
    exact List.take_left _ _
  have hdrop : (natToBEBytes 8 cap ++ (keys.map (g2Write p)).flatten).drop 8 =
      (keys.map (g2Write p)).flatten := by
    rw [← h8]
    exact List.drop_left _ _
  have hchunks : chunksOf 288 ((keys.map (g2Write p)).flatten) =
      keys.map (g2Write p) := by
    refine chunksOf_join_eq 288 (by omega) _ ?_
    intro c hcmem
    obtain ⟨x, _, rfl⟩ := List.mem_map.mp hcmem
    exact g2Write_length p x
  have hcapdec : fromBEBytes (natToBEBytes 8 cap) = cap := by
    rw [fromBEBytes_natToBEBytes]
    exact Nat.mod_eq_of_lt (by norm_num; omega)
  rw [hbytes, PublicKey.from_bytes.eq_def]
  rw [if_neg (by simp [List.length_append, h8])]
  simp only [htake, hdrop, hchunks, hcapdec, readPoints_map_g2Write p hp]
  rw [if_neg (by omega)]

/-- Witness for C8 at `p = 101` with a capacity-1 key. -/
theorem C8_encode_decode_round_trip_witness :
    ((PublicKey.mk 1 [2] : PublicKey 101).signature_capacity =
        (PublicKey.mk 1 [2] : PublicKey 101).public_keys.length ∧
     (PublicKey.mk 1 [2] : PublicKey 101).signature_capacity < 2 ^ 64 ∧
     101 ≤ 256 ^ 288) ∧
    ∃ pk2 : PublicKey 101,
      PublicKey.from_bytes 101 (PublicKey.to_bytes 101 ⟨1, [2]⟩) =
        some (Except.ok pk2) ∧
      PublicKey.partialEq 101 pk2 ⟨1, [2]⟩ :=
  ⟨⟨by decide, by decide,
    le_trans (by decide) (Nat.le_self_pow (by decide) 256)⟩,
   C8_encode_decode_round_trip 101 ⟨1, [2]⟩ (by decide) (by decide)
     (le_trans (by decide) (Nat.le_self_pow (by decide) 256))⟩

/-- Claim C5 (the code at the failing input): the encoding of a capacity-1
public key is 8 + 288 bytes — the point width is the 288-byte uncompressed
projective `ToBytes` width, not a compressed width `w₂ = 96` (nor the
uncompressed affine 192) advertised by a pairing context — and `from_bytes`
insists on the hardcoded 288-byte chunking: an 8 + 96-byte (or 8 + 192-byte)
input aborts inside the point read, while 8 + 288 zero bytes decode. -/
theorem C5_width_hardcoded_288 :
    (PublicKey.to_bytes 101 ⟨1, [2]⟩).length = 8 + 1 * 288 ∧
    (8 + 1 * 288 : ℕ) ≠ 8 + 1 * 96 ∧
    (8 + 1 * 288 : ℕ) ≠ 8 + 1 * 192 ∧
    PublicKey.from_bytes 101 (natToBEBytes 8 1 ++ List.replicate 96 0) =
      none ∧
    PublicKey.from_bytes 101 (natToBEBytes 8 1 ++ List.replicate 192 0) =
      none ∧
    PublicKey.from_bytes 101 (natToBEBytes 8 1 ++ List.replicate 288 0) =
      some (Except.ok ⟨1, [0]⟩) :=
  ⟨by decide, by decide, by decide, by decide, by decide, by decide⟩

/-- Claim C7 (the code at the failing inputs): decoding strict prefixes of a
valid encoding does not always return an error value — prefixes shorter than
8 bytes abort on the `bytes[..8]` slice indexing, and prefixes cutting a
point abort on the `read(..).expect("and this")` panic (both modelled by
`none`); only the 8-byte prefix is rejected with a returned
`UnmatchedCapacity` value. -/
theorem C7_truncated_decode_aborts :
    PublicKey.from_bytes 101 ((PublicKey.to_bytes 101 ⟨1, [2]⟩).take 7) =
      none ∧
    PublicKey.from_bytes 101 ((PublicKey.to_bytes 101 ⟨1, [2]⟩).take 9) =
      none ∧
    PublicKey.from_bytes 101 ((PublicKey.to_bytes 101 ⟨1, [2]⟩).take 295) =
      none ∧
    PublicKey.from_bytes 101 ((PublicKey.to_bytes 101 ⟨1, [2]⟩).take 8) =
      some (Except.error SpsEqSignatureError.UnmatchedCapacity) :=
  ⟨by decide, by decide, by decide, by decide⟩

end SpsEq
